import Mathlib

/-!
Shallow embedding of the token-bounded text/file splitter of
`src/utils/tokenUtils.ts` (simple-prompt-tools), together with proofs of
the specified properties.

Modelling conventions:
* JS strings are embedded as `List Char`; `s.slice(0, k)` is `List.take k`,
  `s.slice(k)` is `List.drop k`, `s.length` is `List.length`.
* JS numbers holding token counts are `Nat` (the token-counter contract
  produces non-negative integers); the binary-search cursors `low`/`high`
  of `findLongestPrefixWithinTokenLimit` are `Int`, because `high` can
  reach `-1` exactly as in the source.
* The `tiktoken` encoder is an external npm dependency that is loaded
  lazily at runtime and is not part of this repository; `getTokenCount`
  is therefore modelled by its in-repository fallback path
  (`getApproximateTokenCount`).
* The source's `while` loops are written as structural recursions over an
  explicit fuel argument; each wrapper instantiates the fuel with a bound
  on the number of iterations that the loop can possibly perform, so the
  wrappers compute exactly what the loops compute.
* Asynchronous functions (`async`/`await`) are sequential in the source
  (each counter call is awaited before the next), so they are embedded as
  plain functions.
-/

namespace SPT

/-- The JS whitespace class `\s` (as used by `split(/\s+/)`, `replace(/\s/g)`
and `String.prototype.trim`): tab, LF, VT, FF, CR, space, NBSP, Ogham space
mark, the U+2000..U+200A range, LS, PS, NNBSP, MMSP, ideographic space and
the BOM. -/
def isJsWs (c : Char) : Bool :=
  let n := c.toNat
  n == 9 || n == 10 || n == 11 || n == 12 || n == 13 || n == 32 ||
  n == 0xA0 || n == 0x1680 || ((0x2000 ≤ n : Bool) && (n ≤ 0x200A : Bool)) ||
  n == 0x2028 || n == 0x2029 || n == 0x202F || n == 0x205F ||
  n == 0x3000 || n == 0xFEFF

/-- Helper for `wordCount`: counts maximal runs of non-whitespace characters,
`inWord` records whether the previous character was part of a run. -/
def wordCountAux : Bool → List Char → Nat
  | _, [] => 0
  | inWord, c :: rest =>
    if isJsWs c then wordCountAux false rest
    else (if inWord then 0 else 1) + wordCountAux true rest

/-- `text.trim().split(/\s+/).filter(w => w.length > 0).length` from
`getApproximateTokenCount`: splitting the trimmed text at whitespace runs and
discarding empty pieces yields exactly the maximal non-whitespace runs, so the
word count is the number of such runs (trimming only removes boundary
whitespace and cannot change that number). -/
def wordCount (l : List Char) : Nat := wordCountAux false l

/-- `text.replace(/\s/g, "").length`: the number of non-whitespace characters. -/
def nonWsCount (l : List Char) : Nat := (l.filter (fun c => !isJsWs c)).length

/-- `getApproximateTokenCount`: `Math.ceil(wordCount + charCount / 4)`.
Since `wordCount` is an integer, this equals `wordCount + ⌈charCount / 4⌉`,
and `⌈c / 4⌉ = (c + 3) / 4` in natural-number division. -/
def getApproximateTokenCount (l : List Char) : Nat :=
  wordCount l + (nonWsCount l + 3) / 4

/-- `getTokenCount`: returns `0` for empty text (`if (!text) return 0`);
the tiktoken path uses the external lazily-loaded encoder (not part of this
repository), so the deterministic in-repository behaviour is the fallback
`getApproximateTokenCount`. -/
def getTokenCount (l : List Char) : Nat :=
  if l = [] then 0 else getApproximateTokenCount l

/-- `estimateTokenCount`: `0` for empty text, otherwise
`Math.ceil(getApproximateTokenCount(text) / 1.75)`; `1.75 = 7/4`, so the
result is `⌈4·x / 7⌉ = (4·x + 6) / 7` in natural-number division. -/
def estimateTokenCount (l : List Char) : Nat :=
  if l = [] then 0 else (4 * getApproximateTokenCount l + 6) / 7

/-- Three backticks, the markdown fence marker. -/
def backtickFence : List Char := ['`', '`', '`']

/-- The `markdownOverhead` template string of
`getMarkdownFileTokenCount`/`estimateMarkdownFileTokenCount`:
`` ```filename\n\n```\n\n ``. -/
def markdownOverhead (filename : List Char) : List Char :=
  backtickFence ++ filename ++ '\n' :: '\n' :: (backtickFence ++ ['\n', '\n'])

/-- `getMarkdownFileTokenCount`: token count of `markdownOverhead + content`. -/
def getMarkdownFileTokenCount (filename content : List Char) : Nat :=
  getTokenCount (markdownOverhead filename ++ content)

/-- `estimateMarkdownFileTokenCount`: estimate of `markdownOverhead + content`. -/
def estimateMarkdownFileTokenCount (filename content : List Char) : Nat :=
  estimateTokenCount (markdownOverhead filename ++ content)

/-- The `ParsedFile` record interface. -/
structure ParsedFile where
  filename : List Char
  content : List Char
  tokenCount : Nat
  rawMarkdown : List Char
  deriving DecidableEq, Repr

/-- `String.prototype.trim`: strip leading and trailing JS whitespace. -/
def jsTrim (l : List Char) : List Char :=
  ((l.dropWhile isJsWs).reverse.dropWhile isJsWs).reverse

/-- The rendering `` ```filename\npart\n```\n\n `` built for each sub-chunk by
`splitMarkdownFileIntoTokenChunks`. -/
def renderMarkdownFile (filename part : List Char) : List Char :=
  backtickFence ++ filename ++ '\n' :: (part ++ '\n' :: (backtickFence ++ ['\n', '\n']))

/-- The `rawMarkdown` of a block found by `parseClipboardFiles`:
`match[0] + "\n\n"`, i.e. `` ```label\n ``, the captured content, the closing
fence and a blank-line separator.  Note that no newline is inserted between
the captured content and the closing fence. -/
def parsedRawMarkdown (label content : List Char) : List Char :=
  backtickFence ++ label ++ '\n' :: (content ++ backtickFence ++ ['\n', '\n'])

/-! ### The clipboard parser
`/```([^\n]*)\n([\s\S]*?)```/g` applied repeatedly with `exec`. -/

/-- Does the text begin with the three-backtick fence marker? -/
def fenceAt : List Char → Bool
  | a :: b :: c :: _ => a == '`' && b == '`' && c == '`'
  | _ => false

/-- Does the text contain the three-backtick fence marker anywhere? -/
def hasFence : List Char → Bool
  | [] => false
  | c :: rest => fenceAt (c :: rest) || hasFence rest

/-- A captured content is `clean` when appending a closing fence after it
cannot produce an earlier fence occurrence: it contains no fence and does not
end in a backtick.  Every content captured by the non-greedy `([\s\S]*?)```
is clean (`findClose_sound`), and clean contents round-trip
(`findClose_append`). -/
def clean (l : List Char) : Bool :=
  !hasFence l && !(l.getLast? == some '`')

/-- `([^\n]*)\n`: split at the first newline, returning the (newline-free)
label and the remainder; fails when the text has no newline. -/
def breakAtNewline : List Char → Option (List Char × List Char)
  | [] => none
  | c :: rest =>
    if c = '\n' then some ([], rest)
    else
      match breakAtNewline rest with
      | some (label, body) => some (c :: label, body)
      | none => none

/-- `([\s\S]*?)``` `: non-greedy match, i.e. split at the earliest
three-backtick fence, returning the content before it and the remainder
after it; fails when no fence occurs. -/
def findClose : List Char → Option (List Char × List Char)
  | [] => none
  | c :: rest =>
    if fenceAt (c :: rest) then some ([], (c :: rest).drop 3)
    else
      match findClose rest with
      | some (content, after) => some (c :: content, after)
      | none => none

/-- One attempt of the block regex anchored at the current position: an
opening fence, a newline-terminated label, then the non-greedy body up to the
earliest closing fence.  Returns the label, the captured content and the text
after the match. -/
def matchAt (l : List Char) : Option (List Char × List Char × List Char) :=
  if fenceAt l then
    match breakAtNewline (l.drop 3) with
    | some (label, body) =>
      match findClose body with
      | some (content, rest) => some (label, content, rest)
      | none => none
    | none => none
  else none

/-- The record pushed by the parse loop for one regex match, with the token
counter `tc` (the sync parser uses `estimateMarkdownFileTokenCount`, the
async one `getMarkdownFileTokenCount`). -/
def mkParsedRecord (tc : List Char → List Char → Nat) (label content : List Char) :
    ParsedFile :=
  { filename := jsTrim label
    content := content
    tokenCount := tc (jsTrim label) content
    rawMarkdown := parsedRawMarkdown label content }

/-- The `while ((match = fileBlockRegex.exec(...)))` loop: scan left to right
for the leftmost match, emit a record when the trimmed label is non-empty,
and resume after the match.  Structural fuel recursion: every step consumes
at least one character, so `l.length` fuel is enough (`parseScanGo_congr`). -/
def parseScanGo (tc : List Char → List Char → Nat) : Nat → List Char → List ParsedFile
  | 0, _ => []
  | fuel + 1, l =>
    match l with
    | [] => []
    | c :: rest =>
      match matchAt (c :: rest) with
      | some (label, content, rest') =>
        (if jsTrim label = [] then [] else [mkParsedRecord tc label content]) ++
          parseScanGo tc fuel rest'
      | none => parseScanGo tc fuel rest

/-- The body shared by `parseClipboardFiles` and `parseClipboardFilesAsync`,
which differ only in the token counter applied to each record. -/
def parseClipboardFilesWith (tc : List Char → List Char → Nat) (l : List Char) :
    List ParsedFile :=
  parseScanGo tc l.length l

/-- `parseClipboardFiles`: sync version, counts with
`estimateMarkdownFileTokenCount`. -/
def parseClipboardFiles (clipboardContent : List Char) : List ParsedFile :=
  parseClipboardFilesWith estimateMarkdownFileTokenCount clipboardContent

/-- `parseClipboardFilesAsync`: counts with `getMarkdownFileTokenCount`. -/
def parseClipboardFilesAsync (clipboardContent : List Char) : List ParsedFile :=
  parseClipboardFilesWith getMarkdownFileTokenCount clipboardContent

/-- `filesToMarkdown`: `files.map(f => f.rawMarkdown).join("")`. -/
def filesToMarkdown (files : List ParsedFile) : List Char :=
  (files.map (fun f => f.rawMarkdown)).flatten

/-! ### Grouping -/

/-- Sum of the `tokenCount` fields of a group. -/
def sumTokens (g : List ParsedFile) : Nat := (g.map (fun f => f.tokenCount)).sum

/-- The loop body of `groupFilesByTokenLimit`, carrying the current group and
its running token total.  An oversized file flushes the current group (when
non-empty) and is emitted as a singleton; a file that would overflow the
current group flushes it first; otherwise the file joins the current group. -/
def groupFilesGo (maxTokensPerGroup : Nat) :
    List ParsedFile → List ParsedFile → Nat → List (List ParsedFile)
  | [], cur, _ => if cur = [] then [] else [cur]
  | f :: rest, cur, curTokens =>
    if maxTokensPerGroup < f.tokenCount then
      if cur = [] then [f] :: groupFilesGo maxTokensPerGroup rest cur curTokens
      else cur :: [f] :: groupFilesGo maxTokensPerGroup rest [] 0
    else if maxTokensPerGroup < curTokens + f.tokenCount then
      if cur = [] then groupFilesGo maxTokensPerGroup rest (cur ++ [f]) (curTokens + f.tokenCount)
      else cur :: groupFilesGo maxTokensPerGroup rest [f] f.tokenCount
    else groupFilesGo maxTokensPerGroup rest (cur ++ [f]) (curTokens + f.tokenCount)

/-- `groupFilesByTokenLimit`: greedy single-pass packing starting from an
empty current group. -/
def groupFilesByTokenLimit (files : List ParsedFile) (maxTokensPerGroup : Nat) :
    List (List ParsedFile) :=
  groupFilesGo maxTokensPerGroup files [] 0

/-! ### The prefix search and the splitter -/

/-- The binary-search loop of `findLongestPrefixWithinTokenLimit`.
`low`, `high` and `best` are JS numbers; `mid = Math.floor((low + high) / 2)`
is floor division, i.e. `Int.fdiv`.  `text.slice(0, mid)` is `take mid.toNat`
(in every state the loop reaches, `0 ≤ low ≤ mid`).  Structural fuel
recursion: `high + 1 - low` strictly decreases on every iteration, so any
fuel bounding its initial value is enough; when the fuel and the measure are
both exhausted, `low > high` holds and the returned value `best` is exactly
the loop's result. -/
def searchLoop (text : List Char) (maxTokens : Nat) (tokenCounter : List Char → Nat) :
    Nat → Int → Int → Int → Int
  | 0, _, _, best => best
  | fuel + 1, low, high, best =>
    if low ≤ high then
      let mid := Int.fdiv (low + high) 2
      if tokenCounter (text.take mid.toNat) ≤ maxTokens then
        searchLoop text maxTokens tokenCounter fuel (mid + 1) high mid
      else
        searchLoop text maxTokens tokenCounter fuel low (mid - 1) best
    else best

/-- `findLongestPrefixWithinTokenLimit`: binary search for the longest prefix
within the token limit, then `Math.max(1, best)` to guarantee forward
progress.  The loop starts with `low = 0`, `high = text.length`, `best = 0`,
so `text.length + 2` bounds the iteration count. -/
def findLongestPrefixWithinTokenLimit (text : List Char) (maxTokens : Nat)
    (tokenCounter : List Char → Nat) : Nat :=
  (max 1 (searchLoop text maxTokens tokenCounter (text.length + 2) 0 (text.length : Int) 0)).toNat

/-- The chunking loop of `splitByTokenLimit`: take the longest prefix within
the limit, emit it, and continue on the rest.  Structural fuel recursion:
each iteration consumes at least one character, so `remaining.length` fuel is
enough, and exhausted fuel coincides with the `remaining.length > 0` loop
exit. -/
def splitGo (maxTokensPerChunk : Nat) (tokenCounter : List Char → Nat) :
    Nat → List Char → List (List Char)
  | 0, _ => []
  | fuel + 1, remaining =>
    if remaining = [] then []
    else
      let takeN := findLongestPrefixWithinTokenLimit remaining maxTokensPerChunk tokenCounter
      remaining.take takeN :: splitGo maxTokensPerChunk tokenCounter fuel (remaining.drop takeN)

/-- `splitByTokenLimit`. -/
def splitByTokenLimit (text : List Char) (maxTokensPerChunk : Nat)
    (tokenCounter : List Char → Nat) : List (List Char) :=
  splitGo maxTokensPerChunk tokenCounter text.length text

/-- `splitMarkdownFileIntoTokenChunks`: split the content with a counter that
adds the fence/filename framing, then re-fence every part and count its final
rendering. -/
def splitMarkdownFileIntoTokenChunks (filename content : List Char)
    (maxTokensPerChunk : Nat) : List ParsedFile :=
  (splitByTokenLimit content maxTokensPerChunk
      (fun s => getMarkdownFileTokenCount filename s)).map
    (fun part =>
      { filename := filename
        content := part
        tokenCount := getTokenCount (renderMarkdownFile filename part)
        rawMarkdown := renderMarkdownFile filename part })

/-- Invariant of every record created by the clipboard parsers (with token
counter `tc`): it stems from a regex match with some label `lab` whose trim
is the non-empty filename, the label contains no newline, the captured
content is `clean` (no embedded fence, no trailing backtick — guaranteed by
the non-greedy closing-fence match), `rawMarkdown` is the matched text plus
the blank-line separator, and `tokenCount` was produced by `tc`. -/
def ParsedInvariant (tc : List Char → List Char → Nat) (r : ParsedFile) : Prop :=
  ∃ lab, r.filename = jsTrim lab ∧ jsTrim lab ≠ [] ∧ '\n' ∉ lab ∧
    clean r.content = true ∧ r.rawMarkdown = parsedRawMarkdown lab r.content ∧
    r.tokenCount = tc (jsTrim lab) r.content

/-! ## Proofs -/

/-- `Math.floor((low + high) / 2)` lies between `low` and `high`. -/
lemma fdiv2_bounds (low high : Int) (h : low ≤ high) :
    low ≤ Int.fdiv (low + high) 2 ∧ Int.fdiv (low + high) 2 ≤ high := by
  have h1 := Int.fdiv_add_fmod (low + high) 2
  have h2 : 0 ≤ Int.fmod (low + high) 2 := Int.fmod_nonneg' _ (by norm_num)
  have h3 : Int.fmod (low + high) 2 < 2 := Int.fmod_lt_of_pos _ (by norm_num)
  omega

/-- Loop invariant of the binary search, for an arbitrary counter: the
running `best` is either still `0` or a prefix length whose count fits. -/
lemma searchLoop_basic (text : List Char) (m : Nat) (counter : List Char → Nat) :
    ∀ (fuel : Nat) (low high best : Int), 0 ≤ low →
      (high + 1 - low).toNat ≤ fuel →
      (best = 0 ∨ (0 ≤ best ∧ counter (text.take best.toNat) ≤ m)) →
      (searchLoop text m counter fuel low high best = 0 ∨
        (0 ≤ searchLoop text m counter fuel low high best ∧
          counter (text.take (searchLoop text m counter fuel low high best).toNat) ≤ m)) := by
  intro fuel
  induction fuel with
  | zero =>
    intro low high best _ _ hbest
    simpa [searchLoop] using hbest
  | succ n ih =>
    intro low high best hlow hfuel hbest
    by_cases hlh : low ≤ high
    · have hb := fdiv2_bounds low high hlh
      by_cases hc : counter (text.take (Int.fdiv (low + high) 2).toNat) ≤ m
      · have hstep : searchLoop text m counter (n + 1) low high best =
            searchLoop text m counter n (Int.fdiv (low + high) 2 + 1) high
              (Int.fdiv (low + high) 2) := by
          simp [searchLoop, hlh, hc]
        rw [hstep]
        exact ih _ _ _ (by omega) (by omega) (Or.inr ⟨by omega, hc⟩)
      · have hstep : searchLoop text m counter (n + 1) low high best =
            searchLoop text m counter n low (Int.fdiv (low + high) 2 - 1) best := by
          simp [searchLoop, hlh, hc]
        rw [hstep]
        exact ih _ _ _ hlow (by omega) hbest
    · simpa [searchLoop, hlh] using hbest

/-- The forward-progress floor: `findLongestPrefixWithinTokenLimit` always
returns at least `1`. -/
lemma findLongest_pos (text : List Char) (m : Nat) (counter : List Char → Nat) :
    1 ≤ findLongestPrefixWithinTokenLimit text m counter := by
  unfold findLongestPrefixWithinTokenLimit
  have h := le_max_left (1 : Int)
    (searchLoop text m counter (text.length + 2) 0 (text.length : Int) 0)
  omega

/-- The returned prefix length either satisfies the token bound or is the
forward-progress escape value `1`. -/
lemma findLongest_take_le_or_one (text : List Char) (m : Nat) (counter : List Char → Nat) :
    counter (text.take (findLongestPrefixWithinTokenLimit text m counter)) ≤ m ∨
      findLongestPrefixWithinTokenLimit text m counter = 1 := by
  have h := searchLoop_basic text m counter (text.length + 2) 0 (text.length : Int) 0
    (le_refl 0) (by omega) (Or.inl rfl)
  unfold findLongestPrefixWithinTokenLimit
  rcases h with h0 | ⟨hge, hc⟩
  · rw [h0]
    right
    simp
  · by_cases h1 : searchLoop text m counter (text.length + 2) 0 (text.length : Int) 0 ≤ 0
    · right
      have h0 : searchLoop text m counter (text.length + 2) 0 (text.length : Int) 0 = 0 :=
        le_antisymm h1 hge
      rw [h0]
      simp
    · left
      rw [max_eq_right (by omega : (1 : Int) ≤
        searchLoop text m counter (text.length + 2) 0 (text.length : Int) 0)]
      exact hc

/-- Loop invariant of the binary search under a counter monotone in prefix
length: the result dominates every prefix length that fits, and is itself
either `0` or a fitting prefix length in `[1, text.length]`. -/
lemma searchLoop_mono (text : List Char) (m : Nat) (counter : List Char → Nat)
    (hmono : ∀ i j : Nat, i ≤ j → counter (text.take i) ≤ counter (text.take j)) :
    ∀ (fuel : Nat) (low high best : Int), 0 ≤ low → high ≤ (text.length : Int) →
      (high + 1 - low).toNat ≤ fuel →
      (∀ k : Nat, k ≤ text.length → counter (text.take k) ≤ m → (k : Int) ≤ high) →
      (∀ k : Nat, k ≤ text.length → counter (text.take k) ≤ m →
        ((k : Int) ≤ best ∨ low ≤ (k : Int))) →
      (best = 0 ∨ (1 ≤ best ∧ best ≤ (text.length : Int) ∧
        counter (text.take best.toNat) ≤ m)) →
      ((searchLoop text m counter fuel low high best = 0 ∨
          (1 ≤ searchLoop text m counter fuel low high best ∧
            searchLoop text m counter fuel low high best ≤ (text.length : Int) ∧
            counter (text.take (searchLoop text m counter fuel low high best).toNat) ≤ m)) ∧
        (∀ k : Nat, k ≤ text.length → counter (text.take k) ≤ m →
          (k : Int) ≤ searchLoop text m counter fuel low high best)) := by
  intro fuel
  induction fuel with
  | zero =>
    intro low high best _ _ hfuel ha hc hbest
    have hexit : high < low := by omega
    simp only [searchLoop]
    refine ⟨hbest, fun k hk hck => ?_⟩
    have h1 := ha k hk hck
    have h2 := hc k hk hck
    omega
  | succ n ih =>
    intro low high best hlow hhigh hfuel ha hc hbest
    by_cases hlh : low ≤ high
    · have hb := fdiv2_bounds low high hlh
      by_cases hcnt : counter (text.take (Int.fdiv (low + high) 2).toNat) ≤ m
      · have hstep : searchLoop text m counter (n + 1) low high best =
            searchLoop text m counter n (Int.fdiv (low + high) 2 + 1) high
              (Int.fdiv (low + high) 2) := by
          simp [searchLoop, hlh, hcnt]
        rw [hstep]
        refine ih _ _ _ (by omega) hhigh (by omega) ha
          (fun k hk hck => by omega) ?_
        by_cases hm0 : Int.fdiv (low + high) 2 = 0
        · exact Or.inl hm0
        · exact Or.inr ⟨by omega, by omega, hcnt⟩
      · have hstep : searchLoop text m counter (n + 1) low high best =
            searchLoop text m counter n low (Int.fdiv (low + high) 2 - 1) best := by
          simp [searchLoop, hlh, hcnt]
        rw [hstep]
        refine ih _ _ _ hlow (by omega) (by omega) ?_ hc hbest
        intro k hk hck
        by_contra hcon
        push_neg at hcon
        have hmk : (Int.fdiv (low + high) 2).toNat ≤ k := by omega
        exact hcnt (le_trans (hmono _ _ hmk) hck)
    · have hexit : high < low := by omega
      simp only [searchLoop, if_neg hlh]
      refine ⟨hbest, fun k hk hck => ?_⟩
      have h1 := ha k hk hck
      have h2 := hc k hk hck
      omega

/-- Concatenating the chunks of the splitting loop reproduces the text. -/
lemma splitGo_flatten (m : Nat) (counter : List Char → Nat) :
    ∀ (fuel : Nat) (text : List Char), text.length ≤ fuel →
      (splitGo m counter fuel text).flatten = text := by
  intro fuel
  induction fuel with
  | zero =>
    intro text h
    have ht : text = [] := by
      cases text with
      | nil => rfl
      | cons c rest => simp at h
    subst ht
    simp [splitGo]
  | succ n ih =>
    intro text h
    by_cases ht : text = []
    · simp [splitGo, ht]
    · have hpos := findLongest_pos text m counter
      have hlen : 0 < text.length := List.length_pos.mpr ht
      simp only [splitGo, if_neg ht, List.flatten_cons]
      rw [ih (text.drop (findLongestPrefixWithinTokenLimit text m counter))
        (by simp [List.length_drop]; omega)]
      exact List.take_append_drop _ _

/-- The splitting loop emits at most one chunk per character of input. -/
lemma splitGo_count (m : Nat) (counter : List Char → Nat) :
    ∀ (fuel : Nat) (text : List Char), text.length ≤ fuel →
      (splitGo m counter fuel text).length ≤ text.length := by
  intro fuel
  induction fuel with
  | zero =>
    intro text h
    simp [splitGo]
  | succ n ih =>
    intro text h
    by_cases ht : text = []
    · simp [splitGo, ht]
    · have hpos := findLongest_pos text m counter
      have hlen : 0 < text.length := List.length_pos.mpr ht
      simp only [splitGo, if_neg ht, List.length_cons]
      have hrec := ih (text.drop (findLongestPrefixWithinTokenLimit text m counter))
        (by simp [List.length_drop]; omega)
      simp only [List.length_drop] at hrec
      omega

/-- Every chunk emitted by the splitting loop fits the bound or is a single
character. -/
lemma splitGo_chunk (m : Nat) (counter : List Char → Nat) :
    ∀ (fuel : Nat) (text : List Char), text.length ≤ fuel →
      ∀ ch ∈ splitGo m counter fuel text, counter ch ≤ m ∨ ch.length = 1 := by
  intro fuel
  induction fuel with
  | zero =>
    intro text h ch hch
    simp [splitGo] at hch
  | succ n ih =>
    intro text h ch hch
    by_cases ht : text = []
    · simp [splitGo, ht] at hch
    · have hpos := findLongest_pos text m counter
      have hlen : 0 < text.length := List.length_pos.mpr ht
      simp only [splitGo, if_neg ht, List.mem_cons] at hch
      rcases hch with hhead | htail
      · subst hhead
        rcases findLongest_take_le_or_one text m counter with hfit | hone
        · exact Or.inl hfit
        · right
          rw [hone]
          simp [List.length_take]
          omega
      · exact ih _ (by simp [List.length_drop]; omega) ch htail

/-- C1: for every input text, every limit ≥ 1 and every deterministic token
counter, the chunks returned by `splitByTokenLimit` concatenate (joined with
the empty separator) to exactly the input text, with no characters dropped or
duplicated; empty input yields the empty sequence. -/
theorem splitByTokenLimit_roundtrip (text : List Char) (limit : Nat)
    (counter : List Char → Nat) (hlimit : 1 ≤ limit) :
    (splitByTokenLimit text limit counter).flatten = text ∧
      (text = [] → splitByTokenLimit text limit counter = []) := by
  refine ⟨splitGo_flatten limit counter text.length text (le_refl _), fun h => ?_⟩
  subst h
  rfl

theorem splitByTokenLimit_roundtrip_witness :
    (splitByTokenLimit
        ['A', 'A', 'A', 'A', 'A', 'B', 'B', 'B', 'B', 'B', 'C', 'C', 'C', 'C', 'C'] 5
        (fun l => l.length)).flatten =
      ['A', 'A', 'A', 'A', 'A', 'B', 'B', 'B', 'B', 'B', 'C', 'C', 'C', 'C', 'C'] ∧
      (['A', 'A', 'A', 'A', 'A', 'B', 'B', 'B', 'B', 'B', 'C', 'C', 'C', 'C', 'C'] =
          ([] : List Char) →
        splitByTokenLimit
            ['A', 'A', 'A', 'A', 'A', 'B', 'B', 'B', 'B', 'B', 'C', 'C', 'C', 'C', 'C'] 5
            (fun l => l.length) = []) :=
  splitByTokenLimit_roundtrip _ 5 _ (by decide)

/-- C2: every chunk produced by `splitByTokenLimit` satisfies
`counter c ≤ limit`, or else has length exactly `1` (the forward-progress
escape case). -/
theorem splitByTokenLimit_bound_compliance (text : List Char) (limit : Nat)
    (counter : List Char → Nat) (hlimit : 1 ≤ limit) :
    ∀ ch ∈ splitByTokenLimit text limit counter, counter ch ≤ limit ∨ ch.length = 1 :=
  splitGo_chunk limit counter text.length text (le_refl _)

theorem splitByTokenLimit_bound_compliance_witness :
    (fun l : List Char => l.length) ['A', 'A', 'A', 'A', 'A'] ≤ 5 ∨
      (['A', 'A', 'A', 'A', 'A'] : List Char).length = 1 :=
  splitByTokenLimit_bound_compliance
    ['A', 'A', 'A', 'A', 'A', 'B', 'B', 'B', 'B', 'B', 'C', 'C', 'C', 'C', 'C'] 5
    (fun l => l.length) (by decide) ['A', 'A', 'A', 'A', 'A'] (by decide)

/-- C7: `splitByTokenLimit` terminates after at most `text.length` loop
iterations (one chunk per iteration), because each iteration consumes at
least one character — `findLongestPrefixWithinTokenLimit` always returns at
least `1`. -/
theorem splitByTokenLimit_termination (text : List Char) (limit : Nat)
    (counter : List Char → Nat) (hlimit : 1 ≤ limit) :
    (splitByTokenLimit text limit counter).length ≤ text.length ∧
      1 ≤ findLongestPrefixWithinTokenLimit text limit counter :=
  ⟨splitGo_count limit counter text.length text (le_refl _),
    findLongest_pos text limit counter⟩

theorem splitByTokenLimit_termination_witness :
    (splitByTokenLimit
        ['A', 'A', 'A', 'A', 'A', 'B', 'B', 'B', 'B', 'B', 'C', 'C', 'C', 'C', 'C'] 5
        (fun l => l.length)).length ≤
      (['A', 'A', 'A', 'A', 'A', 'B', 'B', 'B', 'B', 'B', 'C', 'C', 'C', 'C', 'C'] :
        List Char).length ∧
      1 ≤ findLongestPrefixWithinTokenLimit
        ['A', 'A', 'A', 'A', 'A', 'B', 'B', 'B', 'B', 'B', 'C', 'C', 'C', 'C', 'C'] 5
        (fun l => l.length) :=
  splitByTokenLimit_termination _ 5 _ (by decide)

/-- C6: for non-empty text and a counter monotone non-decreasing in prefix
length, `findLongestPrefixWithinTokenLimit` returns the largest
`k ∈ [1, text.length]` with `counter (text.take k) ≤ maxTokens` whenever one
exists, and returns `1` when no `k ≥ 1` satisfies the bound. -/
theorem findLongestPrefixWithinTokenLimit_spec (text : List Char) (maxTokens : Nat)
    (counter : List Char → Nat) (hne : text ≠ [])
    (hmono : ∀ i j : Nat, i ≤ j → counter (text.take i) ≤ counter (text.take j)) :
    ((∃ k, 1 ≤ k ∧ k ≤ text.length ∧ counter (text.take k) ≤ maxTokens) →
      (1 ≤ findLongestPrefixWithinTokenLimit text maxTokens counter ∧
        findLongestPrefixWithinTokenLimit text maxTokens counter ≤ text.length ∧
        counter (text.take (findLongestPrefixWithinTokenLimit text maxTokens counter)) ≤
          maxTokens ∧
        ∀ k, 1 ≤ k → k ≤ text.length → counter (text.take k) ≤ maxTokens →
          k ≤ findLongestPrefixWithinTokenLimit text maxTokens counter)) ∧
      ((∀ k, 1 ≤ k → k ≤ text.length → maxTokens < counter (text.take k)) →
        findLongestPrefixWithinTokenLimit text maxTokens counter = 1) := by
  have h := searchLoop_mono text maxTokens counter hmono (text.length + 2) 0
    (text.length : Int) 0 (le_refl 0) (le_refl _) (by omega)
    (fun k hk hck => by exact_mod_cast hk)
    (fun k hk hck => Or.inr (by omega))
    (Or.inl rfl)
  obtain ⟨hB, hub⟩ := h
  unfold findLongestPrefixWithinTokenLimit
  constructor
  · rintro ⟨k0, hk1, hk2, hk3⟩
    have hkB := hub k0 hk2 hk3
    have hB1 : 1 ≤ searchLoop text maxTokens counter (text.length + 2) 0
        (text.length : Int) 0 := by omega
    rcases hB with h0 | ⟨_, hBlen, hBc⟩
    · omega
    · rw [max_eq_right hB1]
      refine ⟨by omega, by omega, hBc, fun k ha1 ha2 ha3 => ?_⟩
      have := hub k ha2 ha3
      omega
  · intro hall
    rcases hB with h0 | ⟨hB1, hBlen, hBc⟩
    · rw [h0]
      simp
    · exfalso
      have hge : 1 ≤ (searchLoop text maxTokens counter (text.length + 2) 0
          (text.length : Int) 0).toNat := by omega
      have hle : (searchLoop text maxTokens counter (text.length + 2) 0
          (text.length : Int) 0).toNat ≤ text.length := by omega
      exact absurd hBc (not_le.mpr (hall _ hge hle))

theorem findLongestPrefixWithinTokenLimit_spec_witness :
    (∃ k, 1 ≤ k ∧ k ≤ (['a', 'b', 'c'] : List Char).length ∧
      ((['a', 'b', 'c'] : List Char).take k).length ≤ 2) ∧
      (1 ≤ findLongestPrefixWithinTokenLimit ['a', 'b', 'c'] 2 (fun l => l.length) ∧
        findLongestPrefixWithinTokenLimit ['a', 'b', 'c'] 2 (fun l => l.length) ≤
          (['a', 'b', 'c'] : List Char).length ∧
        ((['a', 'b', 'c'] : List Char).take
            (findLongestPrefixWithinTokenLimit ['a', 'b', 'c'] 2
              (fun l => l.length))).length ≤ 2 ∧
        ∀ k, 1 ≤ k → k ≤ (['a', 'b', 'c'] : List Char).length →
          ((['a', 'b', 'c'] : List Char).take k).length ≤ 2 →
          k ≤ findLongestPrefixWithinTokenLimit ['a', 'b', 'c'] 2 (fun l => l.length)) := by
  have h := findLongestPrefixWithinTokenLimit_spec ['a', 'b', 'c'] 2 (fun l => l.length)
    (by decide) (fun i j hij => by simp [List.length_take]; omega)
  exact ⟨⟨2, by decide, by decide, by decide⟩,
    h.1 ⟨2, by decide, by decide, by decide⟩⟩

/-- Flattening the grouping loop's output yields the pending group followed
by the unprocessed files. -/
lemma groupFilesGo_flatten (limit : Nat) :
    ∀ (files cur : List ParsedFile) (tokens : Nat),
      (groupFilesGo limit files cur tokens).flatten = cur ++ files := by
  intro files
  induction files with
  | nil =>
    intro cur tokens
    by_cases hc : cur = [] <;> simp [groupFilesGo, hc]
  | cons f rest ih =>
    intro cur tokens
    by_cases h1 : limit < f.tokenCount
    · by_cases hc : cur = []
      · simp [groupFilesGo, h1, hc, ih]
      · simp [groupFilesGo, h1, hc, ih]
    · by_cases h2 : limit < tokens + f.tokenCount
      · by_cases hc : cur = []
        · simp [groupFilesGo, h1, h2, hc, ih]
        · simp [groupFilesGo, h1, h2, hc, ih]
      · simp [groupFilesGo, h1, h2, ih]

/-- Invariant of the grouping loop: provided the running total matches the
pending group and the pending group fits the limit, every emitted group is
non-empty, and any group whose token sum exceeds the limit is a singleton
made of an oversized input file. -/
lemma groupFilesGo_mem (limit : Nat) :
    ∀ (files cur : List ParsedFile) (tokens : Nat),
      tokens = sumTokens cur → sumTokens cur ≤ limit →
      ∀ g ∈ groupFilesGo limit files cur tokens,
        g ≠ [] ∧ (sumTokens g ≤ limit ∨
          ∃ f, g = [f] ∧ f ∈ files ∧ limit < f.tokenCount) := by
  intro files
  induction files with
  | nil =>
    intro cur tokens _ hfit g hg
    by_cases hc : cur = []
    · simp [groupFilesGo, hc] at hg
    · simp [groupFilesGo, hc] at hg
      subst hg
      exact ⟨hc, Or.inl hfit⟩
  | cons f rest ih =>
    intro cur tokens htok hfit g hg
    by_cases h1 : limit < f.tokenCount
    · by_cases hc : cur = []
      · simp only [groupFilesGo, if_pos h1, if_pos hc, List.mem_cons] at hg
        rcases hg with hgf | hg
        · subst hgf
          exact ⟨by simp, Or.inr ⟨f, rfl, List.mem_cons_self f rest, h1⟩⟩
        · obtain ⟨hne, hd⟩ := ih cur tokens htok hfit g hg
          refine ⟨hne, ?_⟩
          rcases hd with h | ⟨f', e, hm, ho⟩
          · exact Or.inl h
          · exact Or.inr ⟨f', e, List.mem_cons_of_mem f hm, ho⟩
      · simp only [groupFilesGo, if_pos h1, if_neg hc, List.mem_cons] at hg
        rcases hg with hgc | hgf | hg
        · subst hgc
          exact ⟨hc, Or.inl hfit⟩
        · subst hgf
          exact ⟨by simp, Or.inr ⟨f, rfl, List.mem_cons_self f rest, h1⟩⟩
        · obtain ⟨hne, hd⟩ := ih [] 0 (by simp [sumTokens]) (by simp [sumTokens]) g hg
          refine ⟨hne, ?_⟩
          rcases hd with h | ⟨f', e, hm, ho⟩
          · exact Or.inl h
          · exact Or.inr ⟨f', e, List.mem_cons_of_mem f hm, ho⟩
    · by_cases h2 : limit < tokens + f.tokenCount
      · by_cases hc : cur = []
        · exfalso
          subst hc
          simp [sumTokens] at htok
          omega
        · simp only [groupFilesGo, if_neg h1, if_pos h2, if_neg hc, List.mem_cons] at hg
          rcases hg with hgc | hg
          · subst hgc
            exact ⟨hc, Or.inl hfit⟩
          · obtain ⟨hne, hd⟩ := ih [f] f.tokenCount (by simp [sumTokens])
              (by simp [sumTokens]; omega) g hg
            refine ⟨hne, ?_⟩
            rcases hd with h | ⟨f', e, hm, ho⟩
            · exact Or.inl h
            · exact Or.inr ⟨f', e, List.mem_cons_of_mem f hm, ho⟩
      · simp only [groupFilesGo, if_neg h1, if_neg h2] at hg
        obtain ⟨hne, hd⟩ := ih (cur ++ [f]) (tokens + f.tokenCount)
          (by simp [sumTokens] at htok ⊢; omega)
          (by simp [sumTokens] at htok ⊢; omega) g hg
        refine ⟨hne, ?_⟩
        rcases hd with h | ⟨f', e, hm, ho⟩
        · exact Or.inl h
        · exact Or.inr ⟨f', e, List.mem_cons_of_mem f hm, ho⟩

/-- C5: flattening the groups returned by `groupFilesByTokenLimit`, in order,
reproduces the input sequence exactly — same records, same relative order, no
omission, no duplication, no reordering. -/
theorem groupFilesByTokenLimit_order_preservation (files : List ParsedFile) (limit : Nat) :
    (groupFilesByTokenLimit files limit).flatten = files := by
  simpa using groupFilesGo_flatten limit files [] 0

/-- C4: every group returned by `groupFilesByTokenLimit` is non-empty; a
group with more than one member has token sum ≤ limit; and a group whose sum
exceeds the limit is a singleton of an input record whose own `tokenCount`
already exceeded the limit. -/
theorem groupFilesByTokenLimit_bound_compliance (files : List ParsedFile) (limit : Nat) :
    ∀ g ∈ groupFilesByTokenLimit files limit,
      g ≠ [] ∧ (2 ≤ g.length → sumTokens g ≤ limit) ∧
        (limit < sumTokens g → ∃ f, g = [f] ∧ f ∈ files ∧ limit < f.tokenCount) := by
  intro g hg
  obtain ⟨hne, hd⟩ := groupFilesGo_mem limit files [] 0 (by simp [sumTokens])
    (by simp [sumTokens]) g hg
  refine ⟨hne, ?_, ?_⟩
  · intro hlen2
    rcases hd with h | ⟨f, hgf, _, _⟩
    · exact h
    · subst hgf
      simp at hlen2
  · intro hover
    rcases hd with h | hex
    · omega
    · exact hex

theorem groupFilesByTokenLimit_bound_compliance_witness :
    ([⟨['a'], [], 3, []⟩, ⟨['b'], [], 4, []⟩] ≠ ([] : List ParsedFile) ∧
      (2 ≤ ([⟨['a'], [], 3, []⟩, ⟨['b'], [], 4, []⟩] : List ParsedFile).length →
        sumTokens [⟨['a'], [], 3, []⟩, ⟨['b'], [], 4, []⟩] ≤ 10) ∧
      (10 < sumTokens [⟨['a'], [], 3, []⟩, ⟨['b'], [], 4, []⟩] →
        ∃ f, ([⟨['a'], [], 3, []⟩, ⟨['b'], [], 4, []⟩] : List ParsedFile) = [f] ∧
          f ∈ ([⟨['a'], [], 3, []⟩, ⟨['b'], [], 4, []⟩] : List ParsedFile) ∧
          10 < f.tokenCount)) ∧
    ([⟨['c'], [], 20, []⟩] ≠ ([] : List ParsedFile) ∧
      (2 ≤ ([⟨['c'], [], 20, []⟩] : List ParsedFile).length →
        sumTokens [⟨['c'], [], 20, []⟩] ≤ 5) ∧
      (5 < sumTokens [⟨['c'], [], 20, []⟩] →
        ∃ f, ([⟨['c'], [], 20, []⟩] : List ParsedFile) = [f] ∧
          f ∈ ([⟨['a'], [], 3, []⟩, ⟨['c'], [], 20, []⟩] : List ParsedFile) ∧
          5 < f.tokenCount)) :=
  ⟨groupFilesByTokenLimit_bound_compliance [⟨['a'], [], 3, []⟩, ⟨['b'], [], 4, []⟩] 10
      [⟨['a'], [], 3, []⟩, ⟨['b'], [], 4, []⟩] (by decide),
    groupFilesByTokenLimit_bound_compliance [⟨['a'], [], 3, []⟩, ⟨['c'], [], 20, []⟩] 5
      [⟨['c'], [], 20, []⟩] (by decide)⟩

/-- Splitting a word count at a whitespace character: the runs on the two
sides are counted independently. -/
lemma wordCountAux_append_ws (w : Char) (hw : isJsWs w = true) :
    ∀ (xs : List Char) (b : Bool) (ys : List Char),
      wordCountAux b (xs ++ w :: ys) = wordCountAux b xs + wordCountAux false ys := by
  intro xs
  induction xs with
  | nil =>
    intro b ys
    simp [wordCountAux, hw]
  | cons x xs ih =>
    intro b ys
    by_cases hx : isJsWs x
    · simp [wordCountAux, hx, ih]
    · simp only [List.cons_append, wordCountAux, hx, if_false, Bool.false_eq_true,
        List.append_eq]
      rw [ih]
      cases b <;> simp <;> omega

/-- A leading newline does not affect the word count. -/
lemma wordCountAux_nl (z : List Char) :
    wordCountAux false ('\n' :: z) = wordCountAux false z := by
  simp [wordCountAux, (by decide : isJsWs '\n' = true)]

/-- Word counts of the two framings used for a file: the overhead-then-content
string of `getMarkdownFileTokenCount` (`p`, two newlines, `q`, two newlines,
`r`) and the final rendering (`p`, newline, `r`, newline, `q`, two newlines)
contain the same whitespace-delimited runs. -/
lemma wordCount_frame (p q r : List Char) :
    wordCountAux false (p ++ '\n' :: ('\n' :: (q ++ '\n' :: '\n' :: r))) =
      wordCountAux false (p ++ '\n' :: (r ++ '\n' :: (q ++ '\n' :: '\n' :: ([] : List Char)))) := by
  rw [wordCountAux_append_ws '\n' (by decide) p false ('\n' :: (q ++ '\n' :: '\n' :: r)),
    wordCountAux_append_ws '\n' (by decide) p false
      (r ++ '\n' :: (q ++ '\n' :: '\n' :: ([] : List Char))),
    wordCountAux_nl (q ++ '\n' :: '\n' :: r),
    wordCountAux_append_ws '\n' (by decide) q false ('\n' :: r),
    wordCountAux_nl r,
    wordCountAux_append_ws '\n' (by decide) r false (q ++ '\n' :: '\n' :: ([] : List Char)),
    wordCountAux_append_ws '\n' (by decide) q false ('\n' :: ([] : List Char)),
    wordCountAux_nl ([] : List Char)]
  simp [wordCountAux]
  omega

/-- `nonWsCount` distributes over concatenation. -/
lemma nonWsCount_append (x y : List Char) :
    nonWsCount (x ++ y) = nonWsCount x + nonWsCount y := by
  simp [nonWsCount, List.filter_append]

/-- A newline contributes nothing to `nonWsCount`. -/
lemma nonWsCount_nl (z : List Char) : nonWsCount ('\n' :: z) = nonWsCount z := by
  simp [nonWsCount, List.filter_cons, (by decide : isJsWs '\n' = true)]

/-- The empty string has no non-whitespace characters. -/
lemma nonWsCount_nil : nonWsCount [] = 0 := rfl

/-- Non-whitespace character counts of the two framings agree (they are
rearrangements of the same characters). -/
lemma nonWsCount_frame (p q r : List Char) :
    nonWsCount (p ++ '\n' :: ('\n' :: (q ++ '\n' :: '\n' :: r))) =
      nonWsCount (p ++ '\n' :: (r ++ '\n' :: (q ++ '\n' :: '\n' :: ([] : List Char)))) := by
  simp [nonWsCount_append, nonWsCount_nl, nonWsCount_nil]
  omega

/-- The counter used while splitting a markdown file (overhead framing plus
candidate content) computes exactly the token count of the candidate's final
rendering: under the repository's approximate counter the two arrangements
have the same words and the same non-whitespace characters. -/
lemma getMarkdownFileTokenCount_render (f c : List Char) :
    getMarkdownFileTokenCount f c = getTokenCount (renderMarkdownFile f c) := by
  have e1 : markdownOverhead f ++ c =
      (backtickFence ++ f) ++ '\n' :: ('\n' :: (backtickFence ++ '\n' :: '\n' :: c)) := by
    simp [markdownOverhead, backtickFence]
  have e2 : renderMarkdownFile f c =
      (backtickFence ++ f) ++ '\n' ::
        (c ++ '\n' :: (backtickFence ++ '\n' :: '\n' :: ([] : List Char))) := by
    simp [renderMarkdownFile, backtickFence]
  have h1 : markdownOverhead f ++ c ≠ [] := by simp [markdownOverhead, backtickFence]
  have h2 : renderMarkdownFile f c ≠ [] := by simp [renderMarkdownFile, backtickFence]
  unfold getMarkdownFileTokenCount getTokenCount
  rw [if_neg h1, if_neg h2]
  unfold getApproximateTokenCount
  have hwc := wordCount_frame (backtickFence ++ f) backtickFence c
  have hnw := nonWsCount_frame (backtickFence ++ f) backtickFence c
  rw [e1, e2]
  unfold wordCount
  omega

/-- C3: every record returned by `splitMarkdownFileIntoTokenChunks` has
`tokenCount ≤ limit` except (edge case) records whose content is a single
character; the record's `tokenCount` is the token count of its final rendered
`rawMarkdown`, and the splitting counter anticipated exactly that value for
each candidate substring. -/
theorem splitMarkdownFileIntoTokenChunks_bound (filename content : List Char)
    (limit : Nat) (hlimit : 1 ≤ limit) :
    (∀ r ∈ splitMarkdownFileIntoTokenChunks filename content limit,
      r.tokenCount ≤ limit ∨ r.content.length = 1) ∧
      (∀ r ∈ splitMarkdownFileIntoTokenChunks filename content limit,
        r.tokenCount = getTokenCount r.rawMarkdown) ∧
      (∀ s, getMarkdownFileTokenCount filename s = getTokenCount (renderMarkdownFile filename s)) := by
  refine ⟨?_, ?_, fun s => getMarkdownFileTokenCount_render filename s⟩
  · intro r hr
    simp only [splitMarkdownFileIntoTokenChunks, List.mem_map] at hr
    obtain ⟨part, hp, rfl⟩ := hr
    have hb := splitGo_chunk limit (fun s => getMarkdownFileTokenCount filename s)
      content.length content (le_refl _) part hp
    rcases hb with hfit | hone
    · left
      simpa [← getMarkdownFileTokenCount_render] using hfit
    · right
      exact hone
  · intro r hr
    simp only [splitMarkdownFileIntoTokenChunks, List.mem_map] at hr
    obtain ⟨part, _, rfl⟩ := hr
    rfl

theorem splitMarkdownFileIntoTokenChunks_bound_witness :
    (∀ r ∈ splitMarkdownFileIntoTokenChunks ['a'] ['x', 'y', 'z'] 10,
      r.tokenCount ≤ 10 ∨ r.content.length = 1) ∧
      (∀ r ∈ splitMarkdownFileIntoTokenChunks ['a'] ['x', 'y', 'z'] 10,
        r.tokenCount = getTokenCount r.rawMarkdown) ∧
      (∀ s, getMarkdownFileTokenCount ['a'] s = getTokenCount (renderMarkdownFile ['a'] s)) :=
  splitMarkdownFileIntoTokenChunks_bound ['a'] ['x', 'y', 'z'] 10 (by decide)

/-- C10: every record returned by `splitMarkdownFileIntoTokenChunks` carries
the input filename unchanged, and the concatenation of the records' contents,
in output order, is exactly the input content. -/
theorem splitMarkdownFileIntoTokenChunks_content_preservation (filename content : List Char)
    (limit : Nat) :
    (∀ r ∈ splitMarkdownFileIntoTokenChunks filename content limit, r.filename = filename) ∧
      ((splitMarkdownFileIntoTokenChunks filename content limit).map
        (fun r => r.content)).flatten = content := by
  constructor
  · intro r hr
    simp only [splitMarkdownFileIntoTokenChunks, List.mem_map] at hr
    obtain ⟨part, _, rfl⟩ := hr
    rfl
  · unfold splitMarkdownFileIntoTokenChunks
    rw [List.map_map]
    have : ((fun r : ParsedFile => r.content) ∘ fun part =>
        ({ filename := filename, content := part,
           tokenCount := getTokenCount (renderMarkdownFile filename part),
           rawMarkdown := renderMarkdownFile filename part } : ParsedFile)) = id := by
      funext part
      rfl
    rw [this, List.map_id]
    exact splitGo_flatten limit _ content.length content (le_refl _)

theorem splitMarkdownFileIntoTokenChunks_content_preservation_witness :
    (({ filename := ['a'], content := ['x', 'y', 'z'],
        tokenCount := 6,
        rawMarkdown := ['`', '`', '`', 'a', '\n', 'x', 'y', 'z', '\n', '`', '`', '`', '\n', '\n'] } :
          ParsedFile).filename = ['a']) ∧
      ((splitMarkdownFileIntoTokenChunks ['a'] ['x', 'y', 'z'] 10).map
        (fun r => r.content)).flatten = ['x', 'y', 'z'] :=
  ⟨(splitMarkdownFileIntoTokenChunks_content_preservation ['a'] ['x', 'y', 'z'] 10).1 _
      (by decide),
    (splitMarkdownFileIntoTokenChunks_content_preservation ['a'] ['x', 'y', 'z'] 10).2⟩

/-- `fenceAt` characterisation: the text starts with three backticks. -/
lemma fenceAt_iff (l : List Char) : fenceAt l = true ↔ ∃ t, l = '`' :: '`' :: '`' :: t := by
  constructor
  · intro h
    match l with
    | [] => simp [fenceAt] at h
    | [a] => simp [fenceAt] at h
    | [a, b] => simp [fenceAt] at h
    | a :: b :: c :: t =>
      simp [fenceAt] at h
      exact ⟨t, by simp_all⟩
  · rintro ⟨t, rfl⟩
    simp [fenceAt]

/-- One unfolding step of `hasFence`. -/
lemma hasFence_cons_eq (c : Char) (l : List Char) :
    hasFence (c :: l) = (fenceAt (c :: l) || hasFence l) := rfl

/-- `clean` unpacked into its two conditions. -/
lemma clean_iff (l : List Char) :
    clean l = true ↔ hasFence l = false ∧ l.getLast? ≠ some '`' := by
  simp [clean]

/-- `clean` is preserved by dropping the head character. -/
lemma clean_cons {c : Char} {l : List Char} (h : clean (c :: l) = true) : clean l = true := by
  rw [clean_iff] at h ⊢
  obtain ⟨hf, hl⟩ := h
  simp only [hasFence, Bool.or_eq_false_iff] at hf
  cases l with
  | nil => exact ⟨rfl, by simp⟩
  | cons d t =>
    exact ⟨hf.2, by rwa [List.getLast?_cons_cons] at hl⟩

/-- Appending a fence after a clean content cannot create a fence at the
head of the combined text. -/
lemma fenceAt_cons_append_of_clean (c : Char) (l x : List Char) (h : clean (c :: l) = true) :
    fenceAt (c :: (l ++ '`' :: '`' :: '`' :: x)) = false := by
  rw [clean_iff] at h
  obtain ⟨hf, hl⟩ := h
  simp only [hasFence, Bool.or_eq_false_iff] at hf
  cases l with
  | nil =>
    have hc : c ≠ '`' := by simpa using hl
    simp [fenceAt, hc]
  | cons d t =>
    cases t with
    | nil =>
      have hd : d ≠ '`' := by simpa [List.getLast?_cons_cons] using hl
      simp [fenceAt, hd]
    | cons e t' =>
      have : fenceAt (c :: d :: e :: t') = false := hf.1
      simpa [fenceAt] using this

/-- Conversely, when the head of a text whose tail decomposes as
`l ++ fence ++ x` carries no fence, `clean` extends from `l` to `c :: l`. -/
lemma clean_cons_of (c : Char) (l x : List Char) (hl : clean l = true)
    (hf : fenceAt (c :: (l ++ '`' :: '`' :: '`' :: x)) = false) : clean (c :: l) = true := by
  rw [clean_iff] at hl ⊢
  obtain ⟨hlf, hll⟩ := hl
  cases l with
  | nil =>
    have hc : c ≠ '`' := by
      intro hcc
      subst hcc
      simp [fenceAt] at hf
    refine ⟨by simp [hasFence, fenceAt], by simpa using hc⟩
  | cons d t =>
    cases t with
    | nil =>
      refine ⟨by simp [hasFence, fenceAt, hlf], by rwa [List.getLast?_cons_cons]⟩
    | cons e t' =>
      have hft : fenceAt (c :: d :: e :: t') = false := by
        simpa [fenceAt] using hf
      refine ⟨?_, by rwa [List.getLast?_cons_cons]⟩
      rw [hasFence_cons_eq, hft, hlf]
      rfl

/-- Soundness of the label match `([^\n]*)\n`. -/
lemma breakAtNewline_sound :
    ∀ (l lab body : List Char), breakAtNewline l = some (lab, body) →
      l = lab ++ '\n' :: body ∧ '\n' ∉ lab := by
  intro l
  induction l with
  | nil =>
    intro lab body h
    simp [breakAtNewline] at h
  | cons c rest ih =>
    intro lab body h
    by_cases hc : c = '\n'
    · subst hc
      simp [breakAtNewline] at h
      obtain ⟨rfl, rfl⟩ := h
      simp
    · simp only [breakAtNewline, if_neg hc] at h
      cases hrec : breakAtNewline rest with
      | none => rw [hrec] at h; simp at h
      | some p =>
        obtain ⟨lab', body'⟩ := p
        rw [hrec] at h
        simp at h
        obtain ⟨rfl, rfl⟩ := h
        obtain ⟨hdec, hnin⟩ := ih lab' body' hrec
        refine ⟨by simp [hdec], ?_⟩
        simp [hnin]
        exact fun hcc => hc hcc.symm

/-- Completeness of the label match. -/
lemma breakAtNewline_complete :
    ∀ (lab body : List Char), '\n' ∉ lab →
      breakAtNewline (lab ++ '\n' :: body) = some (lab, body) := by
  intro lab
  induction lab with
  | nil =>
    intro body _
    simp [breakAtNewline]
  | cons c lab' ih =>
    intro body h
    have hc : ¬c = '\n' := fun hcc => h (by simp [hcc])
    simp only [List.cons_append, breakAtNewline, if_neg hc, List.append_eq]
    rw [ih body (fun hm => h (by simp [hm]))]

/-- Soundness of the non-greedy closing-fence match: the text decomposes at
the fence and the captured content is clean. -/
lemma findClose_sound :
    ∀ (l cont after : List Char), findClose l = some (cont, after) →
      l = cont ++ '`' :: '`' :: '`' :: after ∧ clean cont = true := by
  intro l
  induction l with
  | nil =>
    intro cont after h
    simp [findClose] at h
  | cons c rest ih =>
    intro cont after h
    by_cases hf : fenceAt (c :: rest) = true
    · obtain ⟨t, ht⟩ := (fenceAt_iff (c :: rest)).mp hf
      simp only [findClose, hf, if_true] at h
      rw [ht] at h ⊢
      simp at h
      obtain ⟨rfl, rfl⟩ := h
      exact ⟨rfl, by decide⟩
    · simp only [findClose, hf, Bool.false_eq_true, if_false] at h
      cases hrec : findClose rest with
      | none => rw [hrec] at h; simp at h
      | some p =>
        obtain ⟨cont', after'⟩ := p
        rw [hrec] at h
        simp at h
        obtain ⟨hcont, hafter⟩ := h
        subst hcont
        subst hafter
        obtain ⟨hdec, hclean⟩ := ih cont' after' hrec
        subst hdec
        refine ⟨by simp, ?_⟩
        exact clean_cons_of c cont' after' hclean (by simpa using hf)

/-- Completeness of the non-greedy closing-fence match on clean contents. -/
lemma findClose_complete :
    ∀ (cont : List Char), clean cont = true →
      ∀ (x : List Char), findClose (cont ++ '`' :: '`' :: '`' :: x) = some (cont, x) := by
  intro cont
  induction cont with
  | nil =>
    intro _ x
    simp [findClose, fenceAt]
  | cons c0 c' ih =>
    intro h x
    have hclean' : clean c' = true := clean_cons h
    have hne : fenceAt (c0 :: (c' ++ '`' :: '`' :: '`' :: x)) = false :=
      fenceAt_cons_append_of_clean c0 c' x h
    simp only [List.cons_append, findClose, hne, Bool.false_eq_true, if_false,
      List.append_eq]
    rw [ih hclean' x]

/-- Soundness of one regex attempt: a successful match decomposes the text
into fence, newline-free label, newline, clean content, fence, rest. -/
lemma matchAt_sound {l lab cont rest : List Char}
    (h : matchAt l = some (lab, cont, rest)) :
    l = '`' :: '`' :: '`' :: (lab ++ '\n' :: (cont ++ '`' :: '`' :: '`' :: rest)) ∧
      '\n' ∉ lab ∧ clean cont = true := by
  unfold matchAt at h
  by_cases hf : fenceAt l = true
  · obtain ⟨t, rfl⟩ := (fenceAt_iff l).mp hf
    rw [if_pos hf] at h
    simp only [List.drop_succ_cons, List.drop_zero] at h
    cases hb : breakAtNewline t with
    | none => simp [hb] at h
    | some p =>
      obtain ⟨lab', body⟩ := p
      simp only [hb] at h
      cases hc : findClose body with
      | none => simp [hc] at h
      | some q =>
        obtain ⟨cont', rest'⟩ := q
        simp only [hc] at h
        simp at h
        obtain ⟨hl1, hl2, hl3⟩ := h
        subst hl1
        subst hl2
        subst hl3
        obtain ⟨hdec1, hnin⟩ := breakAtNewline_sound t lab' body hb
        obtain ⟨hdec2, hclean⟩ := findClose_sound body cont' rest' hc
        subst hdec2
        subst hdec1
        exact ⟨rfl, hnin, hclean⟩
  · rw [if_neg hf] at h
    simp at h

/-- Completeness of one regex attempt on a rendered block. -/
lemma matchAt_complete {lab cont : List Char} (x : List Char)
    (hnin : '\n' ∉ lab) (hclean : clean cont = true) :
    matchAt ('`' :: '`' :: '`' :: (lab ++ '\n' :: (cont ++ '`' :: '`' :: '`' :: x))) =
      some (lab, cont, x) := by
  unfold matchAt
  rw [if_pos (by simp [fenceAt])]
  simp only [List.drop_succ_cons, List.drop_zero]
  simp only [breakAtNewline_complete lab _ hnin, findClose_complete cont hclean x]

/-- A successful match consumes at least one character. -/
lemma matchAt_length {l lab cont rest : List Char}
    (h : matchAt l = some (lab, cont, rest)) : rest.length < l.length := by
  obtain ⟨hdec, -, -⟩ := matchAt_sound h
  subst hdec
  simp
  omega

/-- The regex cannot match at a non-backtick character. -/
lemma matchAt_not_backtick {c : Char} (l : List Char) (hc : c ≠ '`') :
    matchAt (c :: l) = none := by
  unfold matchAt
  rw [if_neg ?_]
  intro hf
  obtain ⟨t, ht⟩ := (fenceAt_iff (c :: l)).mp hf
  exact hc (by injection ht)

/-- The scan loop on empty input returns no records, for any fuel. -/
lemma parseScanGo_nil (tc : List Char → List Char → Nat) :
    ∀ fuel, parseScanGo tc fuel [] = [] := by
  intro fuel
  cases fuel <;> rfl

/-- The scan loop does not depend on the fuel, once the fuel covers the
input length (each step consumes at least one character). -/
lemma parseScanGo_congr (tc : List Char → List Char → Nat) :
    ∀ (f1 f2 : Nat) (l : List Char), l.length ≤ f1 → l.length ≤ f2 →
      parseScanGo tc f1 l = parseScanGo tc f2 l := by
  intro f1
  induction f1 with
  | zero =>
    intro f2 l h1 _
    have hl : l = [] := by cases l with | nil => rfl | cons c r => simp at h1
    subst hl
    simp [parseScanGo_nil]
  | succ n ih =>
    intro f2 l h1 h2
    cases l with
    | nil => simp [parseScanGo_nil]
    | cons c rest =>
      cases f2 with
      | zero => simp at h2
      | succ m =>
        simp only [parseScanGo]
        cases hm : matchAt (c :: rest) with
        | none =>
          exact ih m rest (by simp at h1; omega) (by simp at h2; omega)
        | some trip =>
          obtain ⟨lab, cont, rest'⟩ := trip
          have hlen := matchAt_length hm
          simp only [List.length_cons] at hlen h1 h2
          exact congrArg
            (fun x => (if jsTrim lab = [] then [] else [mkParsedRecord tc lab cont]) ++ x)
            (ih m rest' (by omega) (by omega))

/-- Stepping the parser over a position where the regex does not match. -/
lemma parseWith_step_none (tc : List Char → List Char → Nat) (c : Char)
    (rest : List Char) (h : matchAt (c :: rest) = none) :
    parseClipboardFilesWith tc (c :: rest) = parseClipboardFilesWith tc rest := by
  unfold parseClipboardFilesWith
  simp only [List.length_cons, parseScanGo, h]

/-- Stepping the parser over a successful regex match. -/
lemma parseWith_step_some (tc : List Char → List Char → Nat) (c : Char)
    (rest lab cont rest' : List Char) (h : matchAt (c :: rest) = some (lab, cont, rest')) :
    parseClipboardFilesWith tc (c :: rest) =
      (if jsTrim lab = [] then [] else [mkParsedRecord tc lab cont]) ++
        parseClipboardFilesWith tc rest' := by
  unfold parseClipboardFilesWith
  simp only [List.length_cons, parseScanGo, h]
  congr 1
  have hlen := matchAt_length h
  simp only [List.length_cons] at hlen
  exact parseScanGo_congr tc rest.length rest'.length rest' (by omega) (le_refl _)

/-- Skipping the separator newline between rendered blocks. -/
lemma parseWith_skip_nl (tc : List Char → List Char → Nat) (l : List Char) :
    parseClipboardFilesWith tc ('\n' :: l) = parseClipboardFilesWith tc l :=
  parseWith_step_none tc '\n' l (matchAt_not_backtick l (by decide))

/-- Every record produced by the parser satisfies `ParsedInvariant`. -/
lemma parseWith_invariant (tc : List Char → List Char → Nat) :
    ∀ (n : Nat) (l : List Char), l.length ≤ n →
      ∀ r ∈ parseClipboardFilesWith tc l, ParsedInvariant tc r := by
  intro n
  induction n with
  | zero =>
    intro l h r hr
    have hl : l = [] := by cases l with | nil => rfl | cons c t => simp at h
    subst hl
    simp [parseClipboardFilesWith, parseScanGo_nil] at hr
  | succ n ih =>
    intro l h r hr
    cases l with
    | nil => simp [parseClipboardFilesWith, parseScanGo_nil] at hr
    | cons c rest =>
      cases hm : matchAt (c :: rest) with
      | none =>
        rw [parseWith_step_none tc c rest hm] at hr
        exact ih rest (by simp at h; omega) r hr
      | some trip =>
        obtain ⟨lab, cont, rest'⟩ := trip
        rw [parseWith_step_some tc c rest lab cont rest' hm, List.mem_append] at hr
        rcases hr with hr | hr
        · by_cases ht : jsTrim lab = []
          · simp [ht] at hr
          · simp only [ht, if_false, List.mem_singleton] at hr
            subst hr
            obtain ⟨-, hnin, hclean⟩ := matchAt_sound hm
            exact ⟨lab, rfl, ht, hnin, hclean, rfl, rfl⟩
        · have hlen := matchAt_length hm
          simp only [List.length_cons] at hlen h
          exact ih rest' (by omega) r hr

/-- Re-parsing the rendered markdown of any record sequence satisfying
`ParsedInvariant` recovers the same filename/content pairs, in order. -/
lemma parse_render (tc tc' : List Char → List Char → Nat) :
    ∀ rs : List ParsedFile, (∀ r ∈ rs, ParsedInvariant tc' r) →
      (parseClipboardFilesWith tc (filesToMarkdown rs)).map
          (fun r => (r.filename, r.content)) =
        rs.map (fun r => (r.filename, r.content)) := by
  intro rs
  induction rs with
  | nil =>
    intro _
    simp [filesToMarkdown, parseClipboardFilesWith, parseScanGo_nil]
  | cons r rs ih =>
    intro hwf
    obtain ⟨lab, hfn, hne, hnin, hclean, hraw, -⟩ := hwf r (List.mem_cons_self r rs)
    have hrest : ∀ r' ∈ rs, ParsedInvariant tc' r' :=
      fun r' h' => hwf r' (List.mem_cons_of_mem r h')
    have hfm : filesToMarkdown (r :: rs) =
        parsedRawMarkdown lab r.content ++ filesToMarkdown rs := by
      simp [filesToMarkdown, hraw]
    have hshape : parsedRawMarkdown lab r.content ++ filesToMarkdown rs =
        '`' :: ('`' :: '`' :: (lab ++ '\n' ::
          (r.content ++ '`' :: '`' :: '`' :: ('\n' :: '\n' :: filesToMarkdown rs)))) := by
      simp [parsedRawMarkdown, backtickFence]
    rw [hfm, hshape, parseWith_step_some tc '`'
        ('`' :: '`' :: (lab ++ '\n' ::
          (r.content ++ '`' :: '`' :: '`' :: ('\n' :: '\n' :: filesToMarkdown rs))))
        lab r.content ('\n' :: '\n' :: filesToMarkdown rs)
        (matchAt_complete ('\n' :: '\n' :: filesToMarkdown rs) hnin hclean),
      if_neg hne, parseWith_skip_nl, parseWith_skip_nl, List.map_append, ih hrest]
    simp [mkParsedRecord, hfn]

/-- C8: applying `parseClipboardFiles` to the `filesToMarkdown` rendering of
its own output recovers the same filename/content pairs, in the same order. -/
theorem parseClipboardFiles_roundtrip (blob : List Char) :
    (parseClipboardFiles (filesToMarkdown (parseClipboardFiles blob))).map
        (fun r => (r.filename, r.content)) =
      (parseClipboardFiles blob).map (fun r => (r.filename, r.content)) :=
  parse_render estimateMarkdownFileTokenCount estimateMarkdownFileTokenCount
    (parseClipboardFiles blob)
    (fun r hr =>
      parseWith_invariant estimateMarkdownFileTokenCount blob.length blob (le_refl _) r hr)

/-- A whitespace head character contributes nothing to `nonWsCount`. -/
lemma nonWsCount_ws_cons (w : Char) (hw : isJsWs w = true) (z : List Char) :
    nonWsCount (w :: z) = nonWsCount z := by
  simp [nonWsCount, List.filter_cons, hw]

/-- Word counts of the overhead framing versus the parsed `rawMarkdown`
framing (no newline before the closing fence): equal whenever the content is
empty or ends in a whitespace character, so that the closing fence still
starts its own run. -/
lemma wordCount_parsed (p q r : List Char)
    (hr : r = [] ∨ ∃ r' w, r = r' ++ [w] ∧ isJsWs w = true) :
    wordCountAux false (p ++ '\n' :: ('\n' :: (q ++ '\n' :: '\n' :: r))) =
      wordCountAux false (p ++ '\n' :: (r ++ (q ++ '\n' :: '\n' :: ([] : List Char)))) := by
  rcases hr with rfl | ⟨r', w, rfl, hw⟩
  · simp only [List.nil_append]
    rw [wordCountAux_append_ws '\n' (by decide) p,
      wordCountAux_append_ws '\n' (by decide) p, wordCountAux_nl]
  · have ha : (r' ++ [w]) ++ (q ++ '\n' :: '\n' :: ([] : List Char)) =
        r' ++ w :: (q ++ '\n' :: '\n' :: ([] : List Char)) := by simp
    have hLHS : wordCountAux false
        (p ++ '\n' :: ('\n' :: (q ++ '\n' :: '\n' :: (r' ++ [w])))) =
        wordCountAux false p + wordCountAux false q + wordCountAux false r' := by
      rw [wordCountAux_append_ws '\n' (by decide) p, wordCountAux_nl,
        wordCountAux_append_ws '\n' (by decide) q, wordCountAux_nl,
        wordCountAux_append_ws w hw r']
      simp [wordCountAux]
      omega
    have hRHS : wordCountAux false
        (p ++ '\n' :: ((r' ++ [w]) ++ (q ++ '\n' :: '\n' :: ([] : List Char)))) =
        wordCountAux false p + wordCountAux false q + wordCountAux false r' := by
      rw [wordCountAux_append_ws '\n' (by decide) p, ha,
        wordCountAux_append_ws w hw r',
        wordCountAux_append_ws '\n' (by decide) q,
        wordCountAux_nl]
      simp [wordCountAux]
      omega
    rw [hLHS, hRHS]

/-- Non-whitespace character counts of the two framings agree. -/
lemma nonWsCount_parsed (p q r : List Char) :
    nonWsCount (p ++ '\n' :: ('\n' :: (q ++ '\n' :: '\n' :: r))) =
      nonWsCount (p ++ '\n' :: (r ++ (q ++ '\n' :: '\n' :: ([] : List Char)))) := by
  simp [nonWsCount_append, nonWsCount_nl, nonWsCount_nil]
  omega

/-- Under the sync counter, the stored count of a parsed record equals the
count of its `rawMarkdown` whenever the captured content is empty or ends in
whitespace. -/
lemma estimateMarkdownFileTokenCount_parsedRaw (f c : List Char)
    (hc : c = [] ∨ ∃ c' w, c = c' ++ [w] ∧ isJsWs w = true) :
    estimateMarkdownFileTokenCount f c = estimateTokenCount (parsedRawMarkdown f c) := by
  have e1 : markdownOverhead f ++ c =
      (backtickFence ++ f) ++ '\n' :: ('\n' :: (backtickFence ++ '\n' :: '\n' :: c)) := by
    simp [markdownOverhead, backtickFence]
  have e2 : parsedRawMarkdown f c =
      (backtickFence ++ f) ++ '\n' ::
        (c ++ (backtickFence ++ '\n' :: '\n' :: ([] : List Char))) := by
    simp [parsedRawMarkdown, backtickFence]
  have h1 : markdownOverhead f ++ c ≠ [] := by simp [markdownOverhead, backtickFence]
  have h2 : parsedRawMarkdown f c ≠ [] := by simp [parsedRawMarkdown, backtickFence]
  unfold estimateMarkdownFileTokenCount estimateTokenCount
  rw [if_neg h1, if_neg h2]
  unfold getApproximateTokenCount wordCount
  have hwc := wordCount_parsed (backtickFence ++ f) backtickFence c hc
  have hnw := nonWsCount_parsed (backtickFence ++ f) backtickFence c
  rw [e1, e2]
  omega

/-- The async-counter version of `estimateMarkdownFileTokenCount_parsedRaw`. -/
lemma getMarkdownFileTokenCount_parsedRaw (f c : List Char)
    (hc : c = [] ∨ ∃ c' w, c = c' ++ [w] ∧ isJsWs w = true) :
    getMarkdownFileTokenCount f c = getTokenCount (parsedRawMarkdown f c) := by
  have e1 : markdownOverhead f ++ c =
      (backtickFence ++ f) ++ '\n' :: ('\n' :: (backtickFence ++ '\n' :: '\n' :: c)) := by
    simp [markdownOverhead, backtickFence]
  have e2 : parsedRawMarkdown f c =
      (backtickFence ++ f) ++ '\n' ::
        (c ++ (backtickFence ++ '\n' :: '\n' :: ([] : List Char))) := by
    simp [parsedRawMarkdown, backtickFence]
  have h1 : markdownOverhead f ++ c ≠ [] := by simp [markdownOverhead, backtickFence]
  have h2 : parsedRawMarkdown f c ≠ [] := by simp [parsedRawMarkdown, backtickFence]
  unfold getMarkdownFileTokenCount getTokenCount
  rw [if_neg h1, if_neg h2]
  unfold getApproximateTokenCount wordCount
  have hwc := wordCount_parsed (backtickFence ++ f) backtickFence c hc
  have hnw := nonWsCount_parsed (backtickFence ++ f) backtickFence c
  rw [e1, e2]
  omega

/-- Characters of the trimmed string come from the original string. -/
lemma mem_jsTrim {x : Char} {l : List Char} (h : x ∈ jsTrim l) : x ∈ l := by
  unfold jsTrim at h
  rw [List.mem_reverse] at h
  have h2 := (List.dropWhile_sublist (l := (l.dropWhile isJsWs).reverse)
    (p := isJsWs)).subset h
  rw [List.mem_reverse] at h2
  exact (List.dropWhile_sublist (l := l) (p := isJsWs)).subset h2

/-- Two parsed raw renderings with the same content and newline-free labels
have equal labels. -/
lemma parsedRawMarkdown_label_inj (a b c : List Char) (ha : '\n' ∉ a) (hb : '\n' ∉ b)
    (h : parsedRawMarkdown a c = parsedRawMarkdown b c) : a = b := by
  simp only [parsedRawMarkdown, backtickFence, List.cons_append, List.nil_append,
    List.cons.injEq, true_and] at h
  have h1 := breakAtNewline_complete a (c ++ backtickFence ++ ['\n', '\n']) ha
  have h2 := breakAtNewline_complete b (c ++ backtickFence ++ ['\n', '\n']) hb
  have hx : a ++ '\n' :: (c ++ backtickFence ++ ['\n', '\n']) =
      b ++ '\n' :: (c ++ backtickFence ++ ['\n', '\n']) := by
    simpa [backtickFence] using h
  rw [hx, h2] at h1
  simpa using h1.symm

/-- C9 counterexample: on the clipboard text `` ```a\nxyz``` `` (captured
content `xyz`, no newline before the closing fence) `parseClipboardFiles`
creates a record with `tokenCount = 4`, while the counter applied to the
record's `rawMarkdown` gives `3`: the invariant
`tokenCount == countTokens(rawMarkdown)` fails at creation time. -/
theorem parsedFile_tokenCount_counterexample :
    (parseClipboardFiles ['`', '`', '`', 'a', '\n', 'x', 'y', 'z', '`', '`', '`']).map
        (fun r => (r.tokenCount, estimateTokenCount r.rawMarkdown)) = [(4, 3)] := by
  decide

/-- C9, amended: records created by `splitMarkdownFileIntoTokenChunks` always
satisfy `tokenCount = countTokens(rawMarkdown)`.  Records created by
`parseClipboardFiles` / `parseClipboardFilesAsync` satisfy it whenever the
fence label carries no surrounding whitespace (equivalently, `rawMarkdown`
frames the record's own `filename`) and the captured content is empty or
ends in a whitespace character, so that the closing fence does not merge
with the content's final word; the counterexample input violates the latter
condition. -/
theorem parsedFile_tokenCount_amended :
    (∀ (f c : List Char) (lim : Nat), ∀ r ∈ splitMarkdownFileIntoTokenChunks f c lim,
      r.tokenCount = getTokenCount r.rawMarkdown) ∧
      (∀ blob : List Char, ∀ r ∈ parseClipboardFiles blob,
        r.rawMarkdown = parsedRawMarkdown r.filename r.content →
        (r.content = [] ∨ ∃ c' w, r.content = c' ++ [w] ∧ isJsWs w = true) →
        r.tokenCount = estimateTokenCount r.rawMarkdown) ∧
      (∀ blob : List Char, ∀ r ∈ parseClipboardFilesAsync blob,
        r.rawMarkdown = parsedRawMarkdown r.filename r.content →
        (r.content = [] ∨ ∃ c' w, r.content = c' ++ [w] ∧ isJsWs w = true) →
        r.tokenCount = getTokenCount r.rawMarkdown) := by
  refine ⟨?_, ?_, ?_⟩
  · intro f c lim r hr
    simp only [splitMarkdownFileIntoTokenChunks, List.mem_map] at hr
    obtain ⟨part, -, rfl⟩ := hr
    rfl
  · intro blob r hr hshape htail
    obtain ⟨lab, hfn, -, hnin, -, hraw, htok⟩ :=
      parseWith_invariant estimateMarkdownFileTokenCount blob.length blob (le_refl _) r hr
    have hnin' : '\n' ∉ r.filename := fun hm => hnin (mem_jsTrim (hfn ▸ hm))
    have hlab : lab = r.filename :=
      parsedRawMarkdown_label_inj lab r.filename r.content hnin hnin'
        (hraw.symm.trans hshape)
    have hjt : jsTrim lab = lab := hfn.symm.trans hlab.symm
    calc r.tokenCount
        = estimateMarkdownFileTokenCount (jsTrim lab) r.content := htok
      _ = estimateMarkdownFileTokenCount lab r.content := by rw [hjt]
      _ = estimateTokenCount (parsedRawMarkdown lab r.content) :=
          estimateMarkdownFileTokenCount_parsedRaw lab r.content htail
      _ = estimateTokenCount r.rawMarkdown := by rw [← hraw]
  · intro blob r hr hshape htail
    obtain ⟨lab, hfn, -, hnin, -, hraw, htok⟩ :=
      parseWith_invariant getMarkdownFileTokenCount blob.length blob (le_refl _) r hr
    have hnin' : '\n' ∉ r.filename := fun hm => hnin (mem_jsTrim (hfn ▸ hm))
    have hlab : lab = r.filename :=
      parsedRawMarkdown_label_inj lab r.filename r.content hnin hnin'
        (hraw.symm.trans hshape)
    have hjt : jsTrim lab = lab := hfn.symm.trans hlab.symm
    calc r.tokenCount
        = getMarkdownFileTokenCount (jsTrim lab) r.content := htok
      _ = getMarkdownFileTokenCount lab r.content := by rw [hjt]
      _ = getTokenCount (parsedRawMarkdown lab r.content) :=
          getMarkdownFileTokenCount_parsedRaw lab r.content htail
      _ = getTokenCount r.rawMarkdown := by rw [← hraw]

theorem parsedFile_tokenCount_amended_witness :
    (({ filename := ['a'], content := ['x'], tokenCount := 5,
        rawMarkdown := ['`', '`', '`', 'a', '\n', 'x', '\n', '`', '`', '`', '\n', '\n'] } :
          ParsedFile).tokenCount =
      getTokenCount (['`', '`', '`', 'a', '\n', 'x', '\n', '`', '`', '`', '\n', '\n'])) ∧
      (({ filename := ['a'], content := ['h', 'i', '\n'], tokenCount := 4,
          rawMarkdown :=
            ['`', '`', '`', 'a', '\n', 'h', 'i', '\n', '`', '`', '`', '\n', '\n'] } :
            ParsedFile).tokenCount =
        estimateTokenCount
          (['`', '`', '`', 'a', '\n', 'h', 'i', '\n', '`', '`', '`', '\n', '\n'])) ∧
      (({ filename := ['a'], content := ['h', 'i', '\n'], tokenCount := 6,
          rawMarkdown :=
            ['`', '`', '`', 'a', '\n', 'h', 'i', '\n', '`', '`', '`', '\n', '\n'] } :
            ParsedFile).tokenCount =
        getTokenCount
          (['`', '`', '`', 'a', '\n', 'h', 'i', '\n', '`', '`', '`', '\n', '\n'])) :=
  ⟨parsedFile_tokenCount_amended.1 ['a'] ['x'] 10 _ (by decide),
    parsedFile_tokenCount_amended.2.1 ['`', '`', '`', 'a', '\n', 'h', 'i', '\n', '`', '`', '`']
      _ (by decide) (by decide) (Or.inr ⟨['h', 'i'], '\n', by decide, by decide⟩),
    parsedFile_tokenCount_amended.2.2 ['`', '`', '`', 'a', '\n', 'h', 'i', '\n', '`', '`', '`']
      _ (by decide) (by decide) (Or.inr ⟨['h', 'i'], '\n', by decide, by decide⟩)⟩

end SPT
